import Mathlib

/-!
# Verification of the go-ds QP-Trie against its specification

This file gives a shallow embedding, in Lean 4, of the QP-Trie implementation
found in `src/qptrie` of the go-ds repository (files `nibble.go`, `twig.go`,
`leaf.go`, `fan.go`, `cut.go`) together with the embedded-key codec
(`src/unnamed/part_001`), and proves or refutes the frozen claims about it.

Modelling conventions:
* Go `string` keys are byte lists (`List Nat`, with well-formedness `b < 256`).
* Go `uint64` values are `Nat`; wrap-around is written explicitly as `% 2^64`
  at the operations where Go can overflow.
* Go `any` values are `Nat`; a `nil` result is `Option.none`.
* `unsafe.Pointer` is a tagged sum (`Ptr`): each allocation site in the Go
  source determines the variant stored; accessors that would reinterpret a
  pointer at the wrong type (undefined behaviour in Go) return a junk default.
* Loops become fuel-based recursion; `none` from fuel exhaustion is
  distinguished from reaching the non-compiling `addToCutNode` (see below).
* `addToCutNode` (cut.go) references the undefined identifiers `num` and
  `twig` and assigns the undeclared `nextPfxSize`, so the Go package does not
  compile; the insertion path that would call it is modelled as an explicit
  abort marker rather than given a behaviour.
-/

namespace QP

/-! ## Constants (twig.go lines 9-37) -/

def byteShift : Nat := 3
def byteWidth : Nat := 1 <<< byteShift
def byteModMask : Nat := byteWidth - 1

def leafBitOffset : Nat := 63
def embKeyBitOffset : Nat := 62
def cutBitOffset : Nat := 62
def nibShiftOffset : Nat := 59
def embKeySizeOffset : Nat := 56
def nibSizeOffset : Nat := 56
def pfxSizeOffset : Nat := 50

def nibShiftWidth : Nat := 3
def embKeySizeWidth : Nat := 3
def nibSizeWidth : Nat := 3
def pfxSizeWidth : Nat := 6
def bitmapWidthMax : Nat := 33

def nibShiftMax : Nat := (1 <<< nibShiftWidth) - 1
def embKeySizeMax : Nat := (1 <<< embKeySizeWidth) - 1
def nibSizeMax : Nat := 5
def pfxSizeMax : Nat := 47

def leafBitMask : Nat := 1 <<< leafBitOffset
def embKeyBitMask : Nat := 1 <<< embKeyBitOffset
def cutBitMask : Nat := 1 <<< cutBitOffset
def nibShiftMask : Nat := nibShiftMax <<< nibShiftOffset
def embKeySizeMask : Nat := embKeySizeMax <<< embKeySizeOffset
def nibSizeMask : Nat := ((1 <<< nibSizeWidth) - 1) <<< nibSizeOffset
def pfxSizeMask : Nat := ((1 <<< pfxSizeWidth) - 1) <<< pfxSizeOffset

/-- All bytes of a key are in range (Go `string` bytes). -/
def WfKey (k : List Nat) : Prop := ∀ b ∈ k, b < 256

instance : DecidablePred WfKey := fun k =>
  inferInstanceAs (Decidable (∀ b ∈ k, b < 256))

/-- The value of a byte string read as a little-endian (per byte, low byte
first) bit stream: byte `i` occupies bits `[8*i, 8*i+8)`. -/
def stream : List Nat → Nat
  | [] => 0
  | b :: t => b + 256 * stream t

/-! ## Bit cursor (nibble.go) -/

/-- The byte-accumulation loop of `takeNBits` (nibble.go lines 42-45):
`for i := 1; doneBits < needBits; i++ { result |= uint64(str[i]) << doneBits;
doneBits += byteWidth }`.  The tail list plays the role of `str[1:]`; the Go
code never indexes past the end because `needBits <= strBits`.  The `% 2^64`
records the wrap-around of the Go `uint64` shift. -/
def accLoop (needBits : Nat) : List Nat → Nat → Nat → Nat
  | tail, result, doneBits =>
    if doneBits < needBits then
      match tail with
      | [] => result
      | b :: rest => accLoop needBits rest (result ||| ((b <<< doneBits) % 2 ^ 64)) (doneBits + 8)
    else result

/-- `take5Bits` (nibble.go lines 55-85): takes 5 bits from a string skipping
the first `skip` bits.  Byte-typed intermediate values wrap at 256 as in Go. -/
def take5Bits : List Nat → Nat → Nat × List Nat × Nat
  | [], _ => (0b100000, [], 0)
  | b :: tail, skip =>
    let nshift := (skip + 5) &&& byteModMask
    let nib := b >>> skip
    if nshift > skip then
      (nib &&& 0b011111, b :: tail, nshift)
    else if tail.length = 0 then
      (nib, [], 0)
    else
      ((nib ||| ((tail.headD 0 <<< (byteWidth - skip)) % 256)) &&& 0b011111, tail, nshift)

/-- `take4Bits` (nibble.go lines 90-120). -/
def take4Bits : List Nat → Nat → Nat × List Nat × Nat
  | [], _ => (0b10000, [], 0)
  | b :: tail, skip =>
    let nshift := (skip + 4) &&& byteModMask
    let nib := b >>> skip
    if nshift > skip then
      (nib &&& 0b01111, b :: tail, nshift)
    else if tail.length = 0 then
      (nib, [], 0)
    else
      ((nib ||| ((tail.headD 0 <<< (byteWidth - skip)) % 256)) &&& 0b01111, tail, nshift)

/-- `takeNBits` (nibble.go lines 13-50): takes `num` bits from a string
skipping the first `skip` bits, returning
(taken-bits, string-remainder, new-shift). -/
def takeNBits (str : List Nat) (skip num : Nat) : Nat × List Nat × Nat :=
  if num = 4 then take4Bits str skip
  else if num = 5 then take5Bits str skip
  else if str.length = 0 then ((1 <<< num) % 2 ^ 64, str, 0)
  else
    -- Go's `mask = (uint64(1) << num) - 1`: at num = 64 the shift wraps to 0
    -- and the subtraction wraps to 2^64 - 1, the same value the unbounded
    -- expression gives, so no explicit wrap is needed on the mask.
    let mask := (1 <<< num) - 1
    let result := (str.headD 0) >>> skip
    let strBits := str.length <<< byteShift - skip
    let doneBits := byteWidth - skip
    let needBits := if num > strBits then strBits else num
    let acc := accLoop needBits str.tail result doneBits
    let offset := skip + needBits
    (acc &&& mask, str.drop (offset >>> byteShift), offset &&& byteModMask)

/-- `takeNbits` (the older variant kept in the repository, src/unnamed/part_011
lines 88-122), called by `addToLeaf` (leaf.go) and `addToCutNode` (cut.go):
identical general path, fast path only for `num == 5`, with the empty-string
check performed first. -/
def takeNbits (str : List Nat) (skip num : Nat) : Nat × List Nat × Nat :=
  if str.length = 0 then ((1 <<< num) % 2 ^ 64, str, 0)
  else if num = 5 then take5Bits str skip
  else
    let mask := (1 <<< num) - 1
    let result := (str.headD 0) >>> skip
    let strBits := str.length * byteWidth - skip
    let doneBits := byteWidth - skip
    let needBits := if num > strBits then strBits else num
    let acc := accLoop needBits str.tail result doneBits
    let offset := skip + needBits
    (acc &&& mask, str.drop (offset / byteWidth), offset &&& byteModMask)

/-- Reference characterisation of `takeNBits` (proved equal to it below):
on a non-empty key it consumes `min num (8*len - skip)` bits of the key's
little-endian bit stream starting at bit `skip`, returning their value, the
remaining byte suffix and the new sub-byte shift; on an empty key it returns
the sentinel `2^num`, wrapped to 64 bits as Go's `uint64(1) << num` is. -/
def takeSpec (str : List Nat) (skip num : Nat) : Nat × List Nat × Nat :=
  if str.length = 0 then (2 ^ num % 2 ^ 64, str, 0)
  else
    let c := min num (8 * str.length - skip)
    ((stream str >>> skip) % 2 ^ c, str.drop ((skip + c) / 8), (skip + c) % 8)

/-! ## Bit-counting helpers (Go math/bits, operands are `uint64`) -/

/-- `bits.OnesCount64`: population count of the low 64 bits. -/
def onesCount64 (n : Nat) : Nat :=
  ((List.range 64).filter (fun i => n.testBit i)).length

/-- `bits.TrailingZeros64`: index of the lowest set bit, 64 for 0. -/
def trailingZeros64 (n : Nat) : Nat :=
  (((List.range 64).filter (fun i => n.testBit i)).head?).getD 64

/-! ## The Twig cell (twig.go lines 41-51)

A `Twig` is a 64-bit `bitpack` plus an untyped pointer.  The pointer variants
(doc comment of leaf.go/cut.go, "Pointer variants") are modelled as a tagged
sum; each Go allocation site determines the variant. -/

mutual

inductive Twig : Type where
  | mk (bitpack : Nat) (pointer : Ptr)

inductive Ptr : Type where
  /-- the module-level `unsetPtr` sentinel -/
  | unset : Ptr
  /-- embedding leaf: `&<value>` -/
  | pval (v : Nat) : Ptr
  /-- regular leaf: `&KV{Key, Val}` -/
  | pkv (key : List Nat) (v : Nat) : Ptr
  /-- regular cut-node: `&KV{Key, Val:(*Twig)}` -/
  | pcutkv (key : List Nat) (t : Twig) : Ptr
  /-- embedding cut-node: `(*Twig)` -/
  | ptwig (t : Twig) : Ptr
  /-- fan-node: pointer to a dense child array -/
  | ptwigs (ts : List Twig) : Ptr

end

def Twig.bitpack : Twig → Nat
  | .mk b _ => b

def Twig.pointer : Twig → Ptr
  | .mk _ p => p

/-- Zero `Twig` value (only produced by out-of-range reads that are
undefined behaviour in the Go original). -/
def twigJunk : Twig := .mk 0 .unset

/-- The child array referenced by a fan-node's pointer
(`(*[bitmapWidthMax]Twig)(ptr)`); junk default on a non-array pointer. -/
def twigsOf : Ptr → List Twig
  | .ptwigs ts => ts
  | _ => []

/-! ## Embedded-key codec (src/unnamed/part_001) -/

/-- Little-endian 4-byte load `*(*uint32)(ptr)` at the start of the key
(the Go code runs on a little-endian target; byte `i` lands at bit `8*i`,
which is also the layout the spec fixes). -/
def load32 (k : List Nat) : Nat :=
  k.getD 0 0 ||| (k.getD 1 0 <<< 8) ||| (k.getD 2 0 <<< 16) ||| (k.getD 3 0 <<< 24)

/-- Little-endian 2-byte load `*(*uint16)(ptr)` at the start of the key. -/
def load16 (k : List Nat) : Nat :=
  k.getD 0 0 ||| (k.getD 1 0 <<< 8)

/-- Little-endian 2-byte load at byte offset 4 (`unsafe.Add(ptr, 4)`). -/
def load16at4 (k : List Nat) : Nat :=
  k.getD 4 0 ||| (k.getD 5 0 <<< 8)

/-- `embedKey` (src/unnamed/part_001 lines 8-42): embeds the first
`min len 7` bytes of a key into a bitpack, with the embed flag (bit 62) and
the byte count in bits 56-58.  The `switch size` with `fallthrough` is
unrolled per case. -/
def embedKey (key : List Nat) : Nat :=
  let size := min key.length embKeySizeMax
  let bitpack := embKeyBitMask ||| (size <<< embKeySizeOffset)
  match size with
  | 7 => bitpack ||| (key.getD 6 0 <<< (byteWidth * 6)) ||| load32 key ||| (load16at4 key <<< (byteWidth * 4))
  | 6 => bitpack ||| load32 key ||| (load16at4 key <<< (byteWidth * 4))
  | 5 => bitpack ||| (key.getD 4 0 <<< (byteWidth * 4)) ||| load32 key
  | 4 => bitpack ||| load32 key
  | 3 => bitpack ||| (key.getD 2 0 <<< (byteWidth * 2)) ||| load16 key
  | 2 => bitpack ||| load16 key
  | 1 => bitpack ||| key.getD 0 0
  | _ => bitpack

/-- `extractKey` (src/unnamed/part_001 lines 68-77): reads the byte count
from bits 56-58 and that many little-endian bytes from the low 56 bits. -/
def extractKey (bitpack : Nat) : List Nat :=
  let size := (bitpack &&& embKeySizeMask) >>> embKeySizeOffset
  let data := bitpack &&& ((1 <<< embKeySizeOffset) - 1)
  (List.range size).map (fun i => (data >>> (byteWidth * i)) &&& 255)

/-! ## Accessors

`Shift` and `Bitmap` are methods on `Twig` in the source
(bench_bitwise_test.go lines 160-170); the prefix/nibble-size reads mirror
the inline field extraction of `findClosest` (twig.go lines 131-153) and
`Twig.String` (bench_bitwise_test.go), which is what the `Fan*` accessors
used by `addToFanNode` (missing from this snapshot of the repository)
compute. -/

def twigShift (t : Twig) : Nat := (t.bitpack &&& nibShiftMask) >>> nibShiftOffset

def fanNibbleSize (t : Twig) : Nat := (t.bitpack &&& nibSizeMask) >>> nibSizeOffset

def fanPrefixSize (t : Twig) : Nat := (t.bitpack &&& pfxSizeMask) >>> pfxSizeOffset

/-- The stored prefix value: `(bitpack >> (pfxSizeOffset - pfxSize)) & (2^pfxSize - 1)`. -/
def fanPrefix (t : Twig) : Nat :=
  (t.bitpack >>> (pfxSizeOffset - fanPrefixSize t)) &&& ((1 <<< fanPrefixSize t) - 1)

/-- The fan bitmap: the low `2^nibSize + 1` bits of the bitpack. -/
def fanBitmap (t : Twig) : Nat :=
  t.bitpack &&& ((1 <<< ((1 <<< fanNibbleSize t) + 1)) - 1)

/-! ## Leaf operations (leaf.go) -/

/-- `getLeafKey` (leaf.go lines 150-156). -/
def getLeafKey (leaf : Twig) : List Nat :=
  if leaf.bitpack &&& embKeyBitMask = 0 then
    match leaf.pointer with
    | .pkv k _ => k
    | _ => []
  else extractKey leaf.bitpack

/-- `getLeafKV` (leaf.go lines 158-167); returns `(Key, Val)`. -/
def getLeafKV (leaf : Twig) : List Nat × Nat :=
  if leaf.bitpack &&& embKeyBitMask = 0 then
    match leaf.pointer with
    | .pkv k v => (k, v)
    | _ => ([], 0)
  else
    (extractKey leaf.bitpack,
     match leaf.pointer with
     | .pval v => v
     | _ => 0)

/-- `newLeaf` (leaf.go lines 53-67). -/
def newLeaf (key : List Nat) (shift : Nat) (val : Nat) : Twig :=
  let bitpack := leafBitMask ||| (shift <<< nibShiftOffset)
  if key.length ≤ embKeySizeMax then
    .mk (bitpack ||| embedKey key) (.pval val)
  else
    .mk bitpack (.pkv key val)

/-- `setLeafValue` (leaf.go lines 169-185): functional rendering of the
in-place value replacement; returns the updated leaf and the old value. -/
def setLeafValue (leaf : Twig) (val : Nat) : Twig × Nat :=
  if leaf.bitpack &&& embKeyBitMask ≠ 0 then
    (⟨leaf.bitpack, .pval val⟩,
     match leaf.pointer with
     | .pval v => v
     | _ => 0)
  else
    match leaf.pointer with
    | .pkv k v => (⟨leaf.bitpack, .pkv k val⟩, v)
    | _ => (leaf, 0)

/-! ## Cut-node operations (cut.go) -/

/-- `newCutNode` (cut.go lines 54-69). -/
def newCutNode (cut : List Nat) (shift : Nat) (twig : Twig) : Twig :=
  let bitpack := cutBitMask ||| (shift <<< nibShiftOffset)
  if cut.length ≤ embKeySizeMax then
    .mk (bitpack ||| embedKey cut) (.ptwig twig)
  else
    .mk bitpack (.pcutkv cut twig)

/-- `getCutNodeKey` (cut.go lines 363-369). -/
def getCutNodeKey (node : Twig) : List Nat :=
  if node.bitpack &&& embKeySizeMask = 0 then
    match node.pointer with
    | .pcutkv k _ => k
    | _ => []
  else extractKey node.bitpack

/-- `getCutNodeTwig` (cut.go lines 371-377). -/
def getCutNodeTwig (node : Twig) : Twig :=
  if node.bitpack &&& embKeySizeMask = 0 then
    match node.pointer with
    | .pcutkv _ t => t
    | _ => twigJunk
  else
    match node.pointer with
    | .ptwig t => t
    | _ => twigJunk

/-! ## Fan-node operations (fan.go) -/

/-- `newFanNode` (fan.go lines 9-28). -/
def newFanNode (nibShift nibSize pfxSize pfx : Nat) : Twig :=
  let bitpack := ((nibShift <<< nibShiftOffset) &&& nibShiftMask) |||
    ((nibSize <<< nibSizeOffset) &&& nibSizeMask)
  let bitpack :=
    if pfxSize > 0 then
      let pfxMask := (1 <<< pfxSize) - 1
      let pfxOffset := pfxSizeOffset - pfxSize
      bitpack ||| (((pfxSize <<< pfxSizeOffset) &&& pfxSizeMask) |||
        ((pfx &&& pfxMask) <<< pfxOffset))
    else bitpack
  .mk bitpack .unset

/-- The bit-borrowing loop of `addToFanNode` (fan.go lines 190-193):
`for newNibSize < nibSizeMax && newPfxSize > 0 { newPfxSize--; newNibSize++ }`. -/
def borrowBits : Nat → Nat → Nat × Nat
  | 0, nib => (0, nib)
  | p + 1, nib => if nib < nibSizeMax then borrowBits p (nib + 1) else (p + 1, nib)

/-- Go `uint64` decrement: `x - 1` with wrap-around at zero (used for
`bit - 1` where `bit` may have wrapped to 0). -/
def goSub1 (x : Nat) : Nat := (x + 2 ^ 64 - 1) % 2 ^ 64

/-- `addToFanNode` (fan.go lines 32-277), as a function from the fan-node
cell to its replacement.  The `int`-typed `bitsAvail`/`bitsToTake` are
modelled as `Int` (they can be negative in Go when the key is exhausted);
shift counts handed to `takeNBits` use `Int.toNat` where the Go code would
pass the `int` directly. -/
def addToFanNode (node : Twig) (key : List Nat) (val : Nat) (replaceEmpty : Bool) : Twig :=
  let shift := twigShift node
  let prevShift := shift
  let prevKey := key
  let pfxSize := fanPrefixSize node
  -- the `if pfxSize > 0` prefix block (lines 40-229); result: the possibly
  -- replaced node and the updated key/shift/prevKey/prevShift
  let st : Twig × List Nat × Nat × List Nat × Nat :=
    if pfxSize > 0 then
      let pfx := fanPrefix node
      let bitsAvail : Int := 8 * key.length - shift
      let bitsToTake : Int := min (pfxSize : Int) bitsAvail
      let t := takeNBits key shift bitsToTake.toNat
      if pfx = t.1 ∧ (pfxSize : Int) ≤ bitsAvail then
        (node, t.2.1, t.2.2, prevKey, prevShift)
      else
        -- the prefix doesn't match the key: split the fan-node
        let diff := (pfx ^^^ t.1) ||| (1 <<< bitsToTake.toNat)
        let newPfxSize0 := trailingZeros64 diff
        let bw := borrowBits newPfxSize0 (bitsToTake.toNat - newPfxSize0)
        let newPfxSize := bw.1
        let oldPfxSize0 := pfxSize - (bw.1 + bw.2)
        let pair :=
          if bw.2 > nibSizeMax then (oldPfxSize0 + (bw.2 - nibSizeMax), nibSizeMax)
          else (oldPfxSize0, bw.2)
        let oldPfxSize := pair.1
        let newNibSize := pair.2
        let oldShift := (prevShift + newPfxSize + newNibSize) % byteWidth
        -- `oldFan.bitpack &= ^(nibShiftMask | pfxSizeMask)` then set the fields
        let oldFan : Twig := .mk
          ((node.bitpack &&& ((2 ^ 64 - 1) ^^^ (nibShiftMask ||| pfxSizeMask))) |||
            ((oldShift <<< nibShiftOffset) ||| (oldPfxSize <<< pfxSizeOffset)))
          node.pointer
        let newPfx := pfx &&& ((1 <<< newPfxSize) - 1)
        let newFan0 := newFanNode prevShift newNibSize newPfxSize newPfx
        let newNib := (pfx >>> newPfxSize) &&& ((1 <<< newNibSize) - 1)
        -- `newFan.pointer = unsafe.Pointer(&oldFan)`: a one-element child array
        let newFan : Twig := .mk (newFan0.bitpack ||| ((1 <<< newNib) % 2 ^ 64)) (.ptwigs [oldFan])
        let t2 := takeNBits prevKey prevShift newPfxSize
        (newFan, t2.2.1, t2.2.2, t2.2.1, t2.2.2)
    else (node, key, shift, prevKey, prevShift)
  match st with
  | (node1, key1, shift1, prevKey1, prevShift1) =>
    let nibSize := fanNibbleSize node1
    let bitmap := fanBitmap node1
    if bitmap = 0 ∧ replaceEmpty then
      -- node is empty - replace with a leaf (lines 236-241)
      newLeaf prevKey1 prevShift1 val
    else
      let t3 := takeNBits key1 shift1 nibSize
      let nib := t3.1 &&& 0xFF
      let bit := (1 <<< nib) % 2 ^ 64
      let total := onesCount64 bitmap
      let idx := onesCount64 (bitmap &&& goSub1 bit)
      let leaf := newLeaf t3.2.1 t3.2.2 val
      let curTwigs := (twigsOf node1.pointer).take total
      let newTwigs := curTwigs.take idx ++ [leaf] ++ curTwigs.drop idx
      .mk (node1.bitpack ||| bit) (.ptwigs newTwigs)

/-! ## Descent (twig.go) -/

/-- `findClosest` (twig.go lines 99-184), with the loop turned into
fuel-based recursion (`none` = fuel exhausted; the Go loop can diverge on a
malformed cycle-free input only by running off a corrupt structure).
The running `shift` starts from the root's stored shift, exactly as in the
source. -/
def findClosestF : Nat → Twig → List Nat → Nat → Option (Twig × List Nat × Bool)
  | 0, _, _, _ => none
  | fuel + 1, cur, key, shift =>
    if cur.bitpack &&& leafBitMask ≠ 0 then
      -- `cur` is a leaf: compare the residual key
      some (cur, key, decide (key = getLeafKey cur))
    else if cur.bitpack &&& cutBitMask ≠ 0 then
      -- cut-node
      let chunk := getCutNodeKey cur
      if chunk.isPrefixOf key then
        findClosestF fuel (getCutNodeTwig cur) (key.drop chunk.length) 0
      else some (cur, key, false)
    else
      -- fan-node
      let bitpack := cur.bitpack
      let nibSize := (bitpack &&& nibSizeMask) >>> nibSizeOffset
      let bitmapWidth := (1 <<< nibSize) + 1
      let bitmapMask := (1 <<< bitmapWidth) - 1
      let bitmap := bitpack &&& bitmapMask
      if bitmap = 0 then some (cur, key, false)
      else
        let prevKey := key
        let pfxSize := (bitpack &&& pfxSizeMask) >>> pfxSizeOffset
        let pr : Option (List Nat × Nat) :=
          if pfxSize > 0 then
            let pfxOffset := pfxSizeOffset - pfxSize
            let pfxMask := (1 <<< pfxSize) - 1
            let pfx := (bitpack >>> pfxOffset) &&& pfxMask
            let t := takeNBits key shift pfxSize
            if pfx ≠ t.1 then none else some (t.2.1, t.2.2)
          else some (key, shift)
        match pr with
        | none => some (cur, prevKey, false)
        | some (key', shift') =>
          let t := takeNBits key' shift' nibSize
          let nib := t.1 % 256
          let mask := (1 <<< nib) % 2 ^ 64
          let idx := onesCount64 (bitmap &&& goSub1 mask)
          if bitmap &&& mask = 0 then some (cur, prevKey, false)
          else findClosestF fuel ((twigsOf cur.pointer).getD idx twigJunk) t.2.1 t.2.2

/-- `New()` with no initial pairs (twig.go lines 54-62). -/
def NewQP : Twig := newFanNode 0 nibSizeMax 0 0

/-- `Get` (twig.go lines 65-71). -/
def getGo (fuel : Nat) (qp : Twig) (key : List Nat) : Option (Option Nat × Bool) :=
  (findClosestF fuel qp key (twigShift qp)).map
    (fun r => if r.2.2 then (some (getLeafKV r.1).2, true) else (none, false))

/-! ## Leaf splitting (leaf.go lines 69-148) -/

/-- Length of the longest common byte prefix (the counting loop of
`addToLeaf`, lines 80-85). -/
def commonPrefixLen : List Nat → List Nat → Nat
  | a :: as, b :: bs => if a = b then commonPrefixLen as bs + 1 else 0
  | _, _ => 0

/-- The fan-node chain of `addToLeaf` (lines 110-148): while the two keys
yield the same 5-bit nibble append a fan-node, then finish with a fan
holding the two leaves ordered by nibble value. -/
def leafChainF : Nat → Nat × List Nat × Nat → Nat × List Nat × Nat → Nat → Nat → Nat → Option Twig
  | 0, _, _, _, _, _ => none
  | fuel + 1, (n1, k1, s1), (n2, k2, s2), curShift, val, oldVal =>
    if n1 = n2 then
      (leafChainF fuel (takeNbits k1 s1 nibSizeMax) (takeNbits k2 s2 nibSizeMax) s1 val oldVal).map
        (fun sub => .mk ((newFanNode curShift nibSizeMax 0 0).bitpack ||| ((1 <<< n1) % 2 ^ 64))
          (.ptwigs [sub]))
    else
      let leaf1 := newLeaf k1 s1 val
      let leaf2 := newLeaf k2 s2 oldVal
      let leaves := if n1 < n2 then [leaf1, leaf2] else [leaf2, leaf1]
      some (.mk ((newFanNode curShift nibSizeMax 0 0).bitpack |||
          ((1 <<< n1) % 2 ^ 64) ||| ((1 <<< n2) % 2 ^ 64))
        (.ptwigs leaves))

/-- `addToLeaf` (leaf.go lines 69-148): replace a leaf whose key disagrees
with the incoming key by a (cut-node →) fan-node chain ending in two leaves. -/
def addToLeafF (fuel : Nat) (leaf : Twig) (key : List Nat) (val : Nat) : Option Twig :=
  let shift := twigShift leaf
  let kv := getLeafKV leaf
  let num := commonPrefixLen key kv.1
  let shift0 := if num > 0 then 0 else shift
  let t1 := takeNbits (key.drop num) shift0 nibSizeMax
  let t2 := takeNbits (kv.1.drop num) shift0 nibSizeMax
  (leafChainF fuel t1 t2 shift0 val kv.2).map
    (fun chain => if num > 0 then newCutNode (key.take num) shift chain else chain)

/-! ## Insertion (twig.go lines 74-97) -/

/-- Re-pointing a cut-node at a replaced child (the Go code mutates the
twig reached through `getCutNodeTwig`'s pointer in place). -/
def rebuildCut (cut : Twig) (child : Twig) : Twig :=
  if cut.bitpack &&& embKeySizeMask = 0 then
    match cut.pointer with
    | .pcutkv k _ => .mk cut.bitpack (.pcutkv k child)
    | _ => cut
  else .mk cut.bitpack (.ptwig child)

/-- Result of one `Set`: either the Go return value (with the new tree),
or the marker that `Set` reached `addToCutNode` - whose body does not
compile (undefined `num`, `twig`, undeclared `nextPfxSize`; cut.go
lines 150, 270, 297) - so no behaviour can be ascribed to it. -/
inductive SetOut : Type where
  | ok (t : Twig) (prev : Option Nat) (replaced : Bool)
  | cutAbort (node : Twig) (key : List Nat)

/-- `Set` (twig.go lines 74-97): the same descent as `findClosest`
(twig.go runs `findClosest` and then mutates the returned twig through its
pointer; functionally, the spine is rebuilt around the replaced cell).
On an exact match the leaf value is replaced; a leaf stop goes to
`addToLeaf`; a fan-node stop goes to `addToFanNode` with
`replaceEmpty = true` (line 86); a cut-node stop would call the
non-compiling `addToCutNode` and is marked `cutAbort`. -/
def setF : Nat → Twig → List Nat → Nat → Nat → Option SetOut
  | 0, _, _, _, _ => none
  | fuel + 1, cur, key, shift, val =>
    if cur.bitpack &&& leafBitMask ≠ 0 then
      if key = getLeafKey cur then
        let r := setLeafValue cur val
        some (.ok r.1 (some r.2) true)
      else
        (addToLeafF fuel cur key val).map (fun t => .ok t none false)
    else if cur.bitpack &&& cutBitMask ≠ 0 then
      let chunk := getCutNodeKey cur
      if chunk.isPrefixOf key then
        (setF fuel (getCutNodeTwig cur) (key.drop chunk.length) 0 val).map
          (fun r => match r with
            | .ok t prev rep => .ok (rebuildCut cur t) prev rep
            | .cutAbort n k => .cutAbort n k)
      else some (.cutAbort cur key)
    else
      let bitpack := cur.bitpack
      let nibSize := (bitpack &&& nibSizeMask) >>> nibSizeOffset
      let bitmapWidth := (1 <<< nibSize) + 1
      let bitmapMask := (1 <<< bitmapWidth) - 1
      let bitmap := bitpack &&& bitmapMask
      if bitmap = 0 then some (.ok (addToFanNode cur key val true) none false)
      else
        let prevKey := key
        let pr : Option (List Nat × Nat) :=
          if (bitpack &&& pfxSizeMask) >>> pfxSizeOffset > 0 then
            let pfxSize := (bitpack &&& pfxSizeMask) >>> pfxSizeOffset
            let pfxOffset := pfxSizeOffset - pfxSize
            let pfxMask := (1 <<< pfxSize) - 1
            let pfx := (bitpack >>> pfxOffset) &&& pfxMask
            let t := takeNBits key shift pfxSize
            if pfx ≠ t.1 then none else some (t.2.1, t.2.2)
          else some (key, shift)
        match pr with
        | none => some (.ok (addToFanNode cur prevKey val true) none false)
        | some (key', shift') =>
          let t := takeNBits key' shift' nibSize
          let nib := t.1 % 256
          let mask := (1 <<< nib) % 2 ^ 64
          let idx := onesCount64 (bitmap &&& goSub1 mask)
          if bitmap &&& mask = 0 then
            some (.ok (addToFanNode cur prevKey val true) none false)
          else
            (setF fuel ((twigsOf cur.pointer).getD idx twigJunk) t.2.1 t.2.2 val).map
              (fun r => match r with
                | .ok t' prev rep =>
                  .ok (.mk cur.bitpack (.ptwigs ((twigsOf cur.pointer).set idx t'))) prev rep
                | .cutAbort n k => .cutAbort n k)

/-- Top-level `Set`: the running shift starts at the root's stored shift. -/
def setGo (fuel : Nat) (qp : Twig) (key : List Nat) (val : Nat) : Option SetOut :=
  setF fuel qp key (twigShift qp) val

/-- The tree (if any) produced by one `Set`. -/
def setTree : Option SetOut → Option Twig
  | some (.ok t _ _) => some t
  | _ => none

/-- Whether a `Set` ran into the non-compiling `addToCutNode`. -/
def reachedCutAdd : Option SetOut → Bool
  | some (.cutAbort _ _) => true
  | _ => false

/-- Folding a sequence of `Set` operations over a tree. -/
def setSeq (fuel : Nat) (qp : Twig) : List (List Nat × Nat) → Option Twig
  | [] => some qp
  | (k, v) :: rest =>
    match setTree (setGo fuel qp k v) with
    | some t => setSeq fuel t rest
    | none => none

/-!
## Claims

The theorems below settle the frozen claims C1-C10. Concrete byte lists
spell ASCII keys: `[97,98,99,100,101] = "abcde"`, `[97,98,99,100,69] =
"abcdE"`, `[97,98] = "ab"` (all drawn from the repository's own
`TestSet_Get`, twig_test.go).
-/

/-- C1 (code bug). The claim - after any finite sequence of `set`
operations on `new_tree()`, `get` returns the last value stored under each
key - matches the repository's own tests, but the code cannot deliver it:
the sequence `set "abcde" 4; set "abcdE" 5; set "ab" 6` (the repository's
own `TestSet_Get` keys) builds a cut-node `"abcd"` and the third `set`
stops on it with a chunk mismatch, so `Set` calls `addToCutNode`, whose
body references the undefined identifiers `num` and `twig` and assigns the
undeclared `nextPfxSize` (cut.go) - the package does not compile.  The
theorem shows the first two inserts work and are retrievable, and the
third reaches the `addToCutNode` call site. -/
theorem c1_insert_get_blocked_by_addToCutNode :
    ((setSeq 9 NewQP [([97,98,99,100,101], 4), ([97,98,99,100,69], 5)]).bind
      (fun t => getGo 9 t [97,98,99,100,101])) = some (some 4, true) ∧
    ((setSeq 9 NewQP [([97,98,99,100,101], 4), ([97,98,99,100,69], 5)]).bind
      (fun t => getGo 9 t [97,98,99,100,69])) = some (some 5, true) ∧
    ((setSeq 9 NewQP [([97,98,99,100,101], 4), ([97,98,99,100,69], 5)]).map
      (fun t => reachedCutAdd (setGo 9 t [97,98] 6))) = some true := by
  decide

/-- C2 (code bug). The claim - a fan-node with prefix length `p > 0`
reports a mismatch whenever fewer than `p` bits remain in the key - is what
the spec and the repository's own `TestGet` demand (`{"zero-prefix fan,
zero key", zeroPfxFan, zeroKey, nil, false}`), but `findClosest`
(twig.go lines 148-162) never checks the key length: `takeNBits` returns
the truncated remaining bits without a sentinel, and when they happen to
equal the stored prefix the descent continues.  Below, the repository's own
`zeroPfxFan` (16-bit zero prefix, seeded with `"\x00\x00" -> 1` and
`"\x00\x00\x00" -> 2`) is queried with the 8-bit key `"\x00"`: only 8 < 16
bits remain, yet `Get` returns `(1, true)` instead of reporting a
mismatch. -/
theorem c2_short_key_matches_prefix_lookup_hit :
    fanPrefixSize (newFanNode 0 5 16 0) = 16 ∧
    8 * ([0] : List Nat).length < 16 ∧
    getGo 5 (addToFanNode (addToFanNode (newFanNode 0 5 16 0) [0,0] 1 false)
      [0,0,0] 2 false) [0] = some (some 1, true) := by
  decide

/-- C3 counterexample. The claim says top-level `set` invokes
`addToFanNode` with `replace_empty = false`; in the source `Set` passes
`true` (twig.go line 86).  Observable difference on the empty tree and key
`"a"`: the actual `Set` replaces the empty root fan-node wholesale with a
leaf (leaf bit set), whereas the call the claim describes
(`addToFanNode ... false`) leaves it a fan-node. -/
theorem c3_counterexample_set_passes_true :
    ((setTree (setGo 2 NewQP [97] 7)).map (fun t => t.bitpack &&& leafBitMask)) =
      some leafBitMask ∧
    (addToFanNode NewQP [97] 7 false).bitpack &&& leafBitMask = 0 := by
  decide

/-- C4 (code bug). The claim - `set` on an absent key returns
`replaced = false` with a nil previous value - holds on paths that
complete, but on the tree built from `"ka" -> 1, "kb" -> 2` (root cut-node
`"k"`) the absent key `"z"` stops on the cut-node with a chunk mismatch and
`Set` calls the non-compiling `addToCutNode` instead of returning
`(nil, false)`.  The theorem shows `"z"` is indeed absent
(`get` = `(nil, false)`) and that `set "z"` reaches the `addToCutNode`
call site. -/
theorem c4_set_absent_key_blocked_by_addToCutNode :
    ((setSeq 6 NewQP [([107,97], 1), ([107,98], 2)]).bind
      (fun t => getGo 6 t [122])) = some (none, false) ∧
    ((setSeq 6 NewQP [([107,97], 1), ([107,98], 2)]).map
      (fun t => reachedCutAdd (setGo 6 t [122] 3))) = some true := by
  decide

/-- C6 (code bug). The claim - after every insert, each fan-node's child
array length equals `popcount(bitmap)` - is the spec's §3 invariant, but
inserting into a prefixed fan-node whose key is exhausted inside the prefix
breaks it: on the legally constructed empty fan `newFanNode 6 2 7 3`
(width 2, 7-bit prefix `0b0000011`, consistent `popcount = length = 0`),
`Set` of the 2-remaining-bit key `0xC0` restructures and then re-inserts at
a nibble whose bitmap bit is already set (fan.go lines 243-277), leaving
`popcount(bitmap) = 1` but a child array of length 2 (one child
unreachable). -/
theorem c6_popcount_vs_child_array_mismatch :
    (onesCount64 (fanBitmap (newFanNode 6 2 7 3)),
      (twigsOf (newFanNode 6 2 7 3).pointer).length) = (0, 0) ∧
    ((setTree (setGo 2 (newFanNode 6 2 7 3) [0xC0] 9)).map
      (fun t => (onesCount64 (fanBitmap t), (twigsOf t.pointer).length))) =
      some (1, 2) ∧
    (1 : Nat) ≠ 2 := by
  decide

/-- C7 (code bug). The claim - every fan-node constructed by the
operations has `p ≤ p_max(w) = 50 - (2^w + 1)` - is the documented bitpack
layout (prefix window `[50-p, 50)` disjoint from the `2^w + 1` bitmap
bits), but the prefix-split of `addToFanNode` violates it: starting from
the legally constructed fan `newFanNode 0 1 30 (2^29)` (width 1, 30-bit
prefix, `30 ≤ p_max(1) = 47`), one `Set` of the key `[0,0,0,0]` produces a
root fan-node with `w = 5` and `p = 25 > p_max(5) = 17`, whose prefix
window `[25, 50)` overlaps its 33-bit bitmap. -/
theorem c7_prefix_exceeds_pmax_after_split :
    (fanPrefixSize (newFanNode 0 1 30 (2 ^ 29)),
      fanNibbleSize (newFanNode 0 1 30 (2 ^ 29))) = (30, 1) ∧
    30 ≤ 50 - (2 ^ 1 + 1) ∧
    ((setTree (setGo 2 (newFanNode 0 1 30 (2 ^ 29)) [0,0,0,0] 9)).map
      (fun t => (fanPrefixSize t, fanNibbleSize t))) = some (25, 5) ∧
    ¬ (25 ≤ 50 - (2 ^ 5 + 1)) ∧
    50 - 25 < 2 ^ 5 + 1 := by
  decide

/-- `Set` helper: on a twig that is a fan-node (leaf and cut bits clear)
with an empty bitmap, the descent stops immediately and `Set` hands the
node to `addToFanNode` with `replaceEmpty = true` (twig.go lines 81-87,
137-139). -/
theorem setF_stops_on_empty_fan (fuel : Nat) (cur : Twig) (key : List Nat) (shift val : Nat)
    (h1 : cur.bitpack &&& leafBitMask = 0)
    (h2 : cur.bitpack &&& cutBitMask = 0)
    (h3 : fanBitmap cur = 0) :
    setF (fuel + 1) cur key shift val =
      some (.ok (addToFanNode cur key val true) none false) := by
  have h3' : cur.bitpack &&&
      ((1 <<< ((1 <<< ((cur.bitpack &&& nibSizeMask) >>> nibSizeOffset)) + 1)) - 1) = 0 := h3
  simp only [setF, h1, h2, h3', ne_eq, not_true_eq_false, if_false, if_true,
    not_false_eq_true, ite_true, ite_false, if_neg, reduceIte]

/-- `addToFanNode` helper: on a prefix-free fan-node with an empty bitmap
and `replaceEmpty = true`, the node is replaced wholesale by a leaf holding
the entire remaining key at the node's stored shift (fan.go lines 236-241). -/
theorem addToFanNode_on_empty (node : Twig) (key : List Nat) (val : Nat)
    (hp : fanPrefixSize node = 0)
    (hb : fanBitmap node = 0) :
    addToFanNode node key val true = newLeaf key (twigShift node) val := by
  set_option maxRecDepth 4096 in
  simp [addToFanNode, hp, hb]

/-- C3 amended (proved). Top-level `Set` invokes `addToFanNode` with
`replace_empty = true` (twig.go line 86) - there are no other callers in
the source - so a `Set` that stops on a fresh empty fan-node (bitmap 0)
replaces it wholesale with a leaf carrying the full remaining key at the
node's stored shift, and returns `(nil, false)`. -/
theorem c3_amended_set_replaces_empty_fan_with_leaf :
    ∀ s : Nat, s < 8 → ∀ (key : List Nat) (v fuel : Nat),
      setGo (fuel + 1) (newFanNode s nibSizeMax 0 0) key v =
        some (.ok (newLeaf key s v) none false) := by
  intro s hs key v fuel
  interval_cases s <;>
    (rw [setGo, setF_stops_on_empty_fan _ _ _ _ _ (by decide) (by decide) (by decide),
      addToFanNode_on_empty _ _ _ (by decide) (by decide)]
     rfl)

/-- Witness for `c3_amended_set_replaces_empty_fan_with_leaf` at
`s = 3`, key `[1,2]`, value 5. -/
theorem c3_amended_witness :
    setGo 1 (newFanNode 3 nibSizeMax 0 0) [1, 2] 5 =
      some (.ok (newLeaf [1, 2] 3 5) none false) :=
  c3_amended_set_replaces_empty_fan_with_leaf 3 (by decide) [1, 2] 5 0

/-- C5 (confirmed). Whenever the descent reports no exact match (the key
is absent from the tree), `Get` returns a nil value together with `false`
(twig.go lines 65-71); the model is total, so no error is raised.  In
particular, on the freshly created empty tree `New()` every key whatsoever
misses immediately (empty bitmap, twig.go lines 137-139). -/
theorem c5_get_absent_returns_nil_false :
    (∀ (fuel : Nat) (t : Twig) (key : List Nat) (tw : Twig) (rk : List Nat),
      findClosestF fuel t key (twigShift t) = some (tw, rk, false) →
      getGo fuel t key = some (none, false)) ∧
    (∀ (key : List Nat) (fuel : Nat), getGo (fuel + 1) NewQP key = some (none, false)) := by
  constructor
  · intro fuel t key tw rk h
    unfold getGo
    rw [h]
    rfl
  · intro key fuel
    rfl

/-- Witness for `c5_get_absent_returns_nil_false`: the key `[0]` misses on
the two-leaf tree built from `"ab"`, and on the empty tree. -/
theorem c5_witness :
    getGo 2 (newLeaf [97, 98] 0 1) [0] = some (none, false) ∧
    getGo 1 NewQP [0] = some (none, false) :=
  ⟨c5_get_absent_returns_nil_false.1 2 (newLeaf [97, 98] 0 1) [0]
      (newLeaf [97, 98] 0 1) [0] rfl,
    c5_get_absent_returns_nil_false.2 [0] 0⟩

/-- C9 (corrected): counterexample to the claim as stated. At the endpoint
`n = 64` — inside the claim's range `0 ≤ n ≤ 64` — `takeNBits` on the empty
byte string returns `uint64(1) << 64 = 0`, a value *inside* the 64-bit value
range (`0 < 2^64`), not a sentinel strictly above it. -/
theorem c9_counterexample_sentinel_wraps_at_64 :
    (takeNBits [] 3 64).1 = 0 ∧ (0 : Nat) < 2 ^ 64 := by
  constructor
  · rfl
  · positivity

/-- C9 (corrected): amended. For every starting shift and every `n ≤ 63`,
`takeNBits` on the empty byte string returns the sentinel `2^n` (`1 << n`,
strictly above every `n`-bit value), the unchanged empty key, and shift 0;
at `n = 64` the Go expression `uint64(1) << n` wraps to 0, inside the value
range (nibble.go lines 24-31, 62-66, 97-101). -/
theorem c9_take_bits_empty_sentinel :
    (∀ s n : Nat, n ≤ 63 →
      takeNBits [] s n = (2 ^ n, [], 0) ∧
      ∀ v, v < 2 ^ n → v ≠ (takeNBits [] s n).1) ∧
    ∀ s : Nat, takeNBits [] s 64 = (0, [], 0) := by
  constructor
  · intro s n hn
    have h : takeNBits [] s n = (2 ^ n, [], 0) := by
      by_cases h4 : n = 4
      · subst h4; rfl
      · by_cases h5 : n = 5
        · subst h5; rfl
        · have hlt : (2 : Nat) ^ n < 2 ^ 64 :=
            Nat.pow_lt_pow_right (by norm_num) (by omega)
          simp [takeNBits, h4, h5, Nat.shiftLeft_eq, Nat.mod_eq_of_lt hlt]
          omega
    exact ⟨h, fun v hv => by rw [h]; exact Nat.ne_of_lt hv⟩
  · intro s
    rfl

/-- Witness for `c9_take_bits_empty_sentinel` at `s = 3`, `n = 13`, `v = 100`,
plus the wrapped endpoint at `s = 5`, `n = 64`. -/
theorem c9_witness :
    takeNBits [] 3 13 = (2 ^ 13, [], 0) ∧ 100 ≠ (takeNBits [] 3 13).1 ∧
      takeNBits [] 5 64 = (0, [], 0) :=
  ⟨(c9_take_bits_empty_sentinel.1 3 13 (by decide)).1,
    (c9_take_bits_empty_sentinel.1 3 13 (by decide)).2 100 (by decide),
    c9_take_bits_empty_sentinel.2 5⟩

/-! ## Bit-packing arithmetic toolkit

Go composes bit fields with `|` on values whose windows are disjoint; the
lemmas below convert such `|||`-trees to sums so that div/mod arithmetic
can take over. -/

theorem lor_eq_add_of_and_eq_zero : ∀ a b : Nat, a &&& b = 0 → a ||| b = a + b := by
  intro a
  induction a using Nat.strong_induction_on with
  | _ a ih =>
    intro b h
    rcases Nat.eq_zero_or_pos a with rfl | ha
    · simp
    · have hd : a / 2 &&& b / 2 = 0 := by rw [← Nat.and_div_two, h]
      have ihh := ih (a / 2) (Nat.div_lt_self ha (by norm_num)) (b / 2) hd
      have hmod : (a &&& b) % 2 = 0 := by rw [h]
      have hmm : ¬(a % 2 = 1 ∧ b % 2 = 1) := by
        intro hc
        have := Nat.and_mod_two_eq_one.mpr hc
        omega
      have hor2 := Nat.or_mod_two_eq_one (a := a) (b := b)
      have h1 := Nat.div_add_mod (a ||| b) 2
      have h2 := Nat.div_add_mod a 2
      have h3 := Nat.div_add_mod b 2
      rw [Nat.or_div_two, ihh] at h1
      have hm2 : (a ||| b) % 2 < 2 := Nat.mod_lt _ (by norm_num)
      omega

theorem and_eq_zero_of_lt_dvd {a b n : Nat} (ha : a < 2 ^ n) (hb : 2 ^ n ∣ b) :
    a &&& b = 0 := by
  apply Nat.eq_of_testBit_eq
  intro i
  simp only [Nat.testBit_and, Nat.zero_testBit, Bool.and_eq_false_iff]
  rcases lt_or_ge i n with hi | hi
  · right
    obtain ⟨c, rfl⟩ := hb
    rw [Nat.testBit_mul_pow_two]
    simp [Nat.not_le_of_lt hi]
  · left
    exact Nat.testBit_lt_two_pow (lt_of_lt_of_le ha (Nat.pow_le_pow_right (by norm_num) hi))

theorem orAdd_lo {a b : Nat} (n : Nat) (ha : a < 2 ^ n) (hb : 2 ^ n ∣ b) :
    a ||| b = a + b :=
  lor_eq_add_of_and_eq_zero a b (and_eq_zero_of_lt_dvd ha hb)

theorem orAdd_hi {a b : Nat} (n : Nat) (ha : 2 ^ n ∣ a) (hb : b < 2 ^ n) :
    a ||| b = b + a := by
  rw [Nat.or_comm]
  exact orAdd_lo n hb ha

theorem mod_two_pow_lor (x y n : Nat) : (x ||| y) % 2 ^ n = x % 2 ^ n ||| y % 2 ^ n := by
  apply Nat.eq_of_testBit_eq
  intro i
  simp only [Nat.testBit_mod_two_pow, Nat.testBit_lor]
  cases Nat.decLt i n with
  | isTrue h => simp [h]
  | isFalse h => simp [h]

theorem dvd_lor {x y : Nat} (n : Nat) (h1 : 2 ^ n ∣ x) (h2 : 2 ^ n ∣ y) :
    2 ^ n ∣ (x ||| y) := by
  have hx : x % 2 ^ n = 0 := Nat.mod_eq_zero_of_dvd h1
  have hy : y % 2 ^ n = 0 := Nat.mod_eq_zero_of_dvd h2
  apply Nat.dvd_of_mod_eq_zero
  rw [mod_two_pow_lor, hx, hy]
  rfl

theorem dvd_term (n k : Nat) (x : Nat) (h : n ≤ k) : 2 ^ n ∣ x * 2 ^ k :=
  dvd_mul_of_dvd_right (pow_dvd_pow 2 h) x

theorem or_right_comm (x y z : Nat) : (x ||| y) ||| z = (x ||| z) ||| y := by
  rw [Nat.or_assoc, Nat.or_comm y z, ← Nat.or_assoc]

/-- `(x &&& (m <<< n)) >>> n = (x >>> n) &&& m`: reading a shifted mask. -/
theorem and_shl_shr (x m n : Nat) : (x &&& (m <<< n)) >>> n = (x >>> n) &&& m := by
  apply Nat.eq_of_testBit_eq
  intro i
  simp [Nat.testBit_shiftRight, Nat.testBit_and, Nat.testBit_shiftLeft,
    Nat.le_add_right, Nat.add_sub_cancel_left]

theorem getD_lt (k : List Nat) (wf : WfKey k) (i : Nat) : k.getD i 0 < 256 := by
  rcases lt_or_ge i k.length with h | h
  · have he : k.getD i 0 = k[i] := List.getD_eq_getElem k 0 h
    rw [he]
    exact wf _ (List.getElem_mem h)
  · rw [List.getD_eq_default k 0 h]
    norm_num

/-- The byte stream of a well-formed key is bounded by `2^(8*len)`. -/
theorem stream_lt (l : List Nat) (wf : WfKey l) : stream l < 2 ^ (8 * l.length) := by
  induction l with
  | nil => simp [stream]
  | cons b t ih =>
    have hb : b < 256 := wf b (List.mem_cons_self b t)
    have ht := ih (fun x hx => wf x (List.mem_cons_of_mem b hx))
    simp only [stream, List.length_cons]
    have h2 : 2 ^ (8 * (t.length + 1)) = 256 * 2 ^ (8 * t.length) := by ring
    omega

/-- Byte `i` of a byte stream is the list element `i`. -/
theorem stream_bytes (l : List Nat) (wf : WfKey l) :
    (List.range l.length).map (fun i => stream l / 2 ^ (8 * i) % 256) = l := by
  induction l with
  | nil => simp
  | cons b t ih =>
    have hb : b < 256 := wf b (List.mem_cons_self b t)
    have wt : WfKey t := fun x hx => wf x (List.mem_cons_of_mem b hx)
    rw [List.length_cons, List.range_succ_eq_map, List.map_cons, List.map_map]
    congr 1
    · simp only [stream]
      omega
    · have step : List.map ((fun i => stream (b :: t) / 2 ^ (8 * i) % 256) ∘ Nat.succ)
          (List.range t.length) =
          List.map (fun i => stream t / 2 ^ (8 * i) % 256) (List.range t.length) := by
        apply List.map_congr_left
        intro i _
        simp only [Function.comp_apply, stream, Nat.succ_eq_add_one]
        have hpow : 2 ^ (8 * (i + 1)) = 256 * 2 ^ (8 * i) := by ring
        rw [hpow, ← Nat.div_div_eq_div_mul]
        congr 2
        omega
      rw [step, ih wt]

/-- The 2-byte load in additive form. -/
theorem load16_eq (k : List Nat) (wf : WfKey k) :
    load16 k = k.getD 0 0 + 2 ^ 8 * k.getD 1 0 := by
  unfold load16
  rw [Nat.shiftLeft_eq, orAdd_lo 8 (getD_lt k wf 0) (dvd_term 8 8 _ (le_refl _))]
  ring

/-- The 2-byte load at offset 4 in additive form. -/
theorem load16at4_eq (k : List Nat) (wf : WfKey k) :
    load16at4 k = k.getD 4 0 + 2 ^ 8 * k.getD 5 0 := by
  unfold load16at4
  rw [Nat.shiftLeft_eq, orAdd_lo 8 (getD_lt k wf 4) (dvd_term 8 8 _ (le_refl _))]
  ring

/-- The 4-byte load in additive form. -/
theorem load32_eq (k : List Nat) (wf : WfKey k) :
    load32 k = k.getD 0 0 + 2 ^ 8 * k.getD 1 0 + 2 ^ 16 * k.getD 2 0 + 2 ^ 24 * k.getD 3 0 := by
  unfold load32
  have h0 := getD_lt k wf 0
  have h1 := getD_lt k wf 1
  have h2 := getD_lt k wf 2
  simp only [Nat.shiftLeft_eq]
  rw [orAdd_lo 8 h0 (dvd_term 8 8 _ (le_refl _)),
    orAdd_lo 16 (by omega) (dvd_term 16 16 _ (le_refl _)),
    orAdd_lo 24 (by omega) (dvd_term 24 24 _ (le_refl _))]
  ring

/-- `embedKey` in additive normal form: the embed flag at bit 62, the byte
count `min len 7` at bits 56-58, and the first `min len 7` bytes as a
little-endian stream in the low 56 bits. -/
theorem embedKey_eq (k : List Nat) (wf : WfKey k) :
    embedKey k = 2 ^ 62 + min k.length 7 * 2 ^ 56 + stream (k.take 7) := by
  have hM : embKeySizeMax = 7 := rfl
  have hW : byteWidth = 8 := rfl
  have hO : embKeySizeOffset = 56 := rfl
  have hBM : embKeyBitMask = 2 ^ 62 := by
    norm_num [embKeyBitMask, embKeyBitOffset, Nat.shiftLeft_eq]
  match k, wf with
  | [], _ =>
    simp [embedKey, hM, hBM, stream]
  | [a], wf =>
    have ha : a < 256 := wf a (by simp)
    have hmin : min ([a] : List Nat).length 7 = 1 := by simp
    simp only [embedKey, hM, hW, hO, hBM, hmin, List.take, stream,
      List.getD_cons_zero]
    simp only [Nat.shiftLeft_eq]
    rw [orAdd_hi 62 (dvd_refl _) (by omega),
      orAdd_hi 8 (dvd_add (dvd_term 8 56 _ (by norm_num)) (pow_dvd_pow 2 (by norm_num)))
        (by omega)]
    ring
  | [a, b], wf =>
    have ha : a < 256 := wf a (by simp)
    have hb : b < 256 := wf b (by simp)
    have hmin : min ([a, b] : List Nat).length 7 = 2 := by simp
    simp only [embedKey, hM, hW, hO, hBM, hmin, List.take, stream]
    rw [load16_eq _ wf]
    simp only [List.getD_cons_zero, List.getD_cons_succ, Nat.shiftLeft_eq]
    rw [orAdd_hi 62 (dvd_refl _) (by omega),
      orAdd_hi 16 (dvd_add (dvd_term 16 56 _ (by norm_num)) (pow_dvd_pow 2 (by norm_num)))
        (by omega)]
    ring
  | [a, b, c], wf =>
    have ha : a < 256 := wf a (by simp)
    have hb : b < 256 := wf b (by simp)
    have hc : c < 256 := wf c (by simp)
    have hmin : min ([a, b, c] : List Nat).length 7 = 3 := by simp
    simp only [embedKey, hM, hW, hO, hBM, hmin, List.take, stream]
    rw [load16_eq _ wf]
    simp only [List.getD_cons_zero, List.getD_cons_succ, Nat.shiftLeft_eq, Nat.reduceMul]
    rw [orAdd_hi 62 (dvd_refl _) (by omega),
      orAdd_hi 56 (dvd_add (dvd_term 56 56 _ (le_refl _)) (pow_dvd_pow 2 (by norm_num)))
        (by omega),
      orAdd_hi 16 (dvd_add (dvd_term 16 16 _ (le_refl _))
        (dvd_add (dvd_term 16 56 _ (by norm_num)) (pow_dvd_pow 2 (by norm_num)))) (by omega)]
    ring
  | [a, b, c, d], wf =>
    have ha : a < 256 := wf a (by simp)
    have hb : b < 256 := wf b (by simp)
    have hc : c < 256 := wf c (by simp)
    have hd : d < 256 := wf d (by simp)
    have hmin : min ([a, b, c, d] : List Nat).length 7 = 4 := by simp
    simp only [embedKey, hM, hW, hO, hBM, hmin, List.take, stream]
    rw [load32_eq _ wf]
    simp only [List.getD_cons_zero, List.getD_cons_succ, Nat.shiftLeft_eq]
    rw [orAdd_hi 62 (dvd_refl _) (by omega),
      orAdd_hi 32 (dvd_add (dvd_term 32 56 _ (by norm_num)) (pow_dvd_pow 2 (by norm_num)))
        (by omega)]
    ring
  | [a, b, c, d, e], wf =>
    have ha : a < 256 := wf a (by simp)
    have hb : b < 256 := wf b (by simp)
    have hc : c < 256 := wf c (by simp)
    have hd : d < 256 := wf d (by simp)
    have he : e < 256 := wf e (by simp)
    have hmin : min ([a, b, c, d, e] : List Nat).length 7 = 5 := by simp
    simp only [embedKey, hM, hW, hO, hBM, hmin, List.take, stream]
    rw [load32_eq _ wf]
    simp only [List.getD_cons_zero, List.getD_cons_succ, Nat.shiftLeft_eq, Nat.reduceMul]
    rw [orAdd_hi 62 (dvd_refl _) (by omega),
      orAdd_hi 56 (dvd_add (dvd_term 56 56 _ (le_refl _)) (pow_dvd_pow 2 (by norm_num)))
        (by omega),
      orAdd_hi 32 (dvd_add (dvd_term 32 32 _ (le_refl _))
        (dvd_add (dvd_term 32 56 _ (by norm_num)) (pow_dvd_pow 2 (by norm_num)))) (by omega)]
    ring
  | [a, b, c, d, e, f], wf =>
    have ha : a < 256 := wf a (by simp)
    have hb : b < 256 := wf b (by simp)
    have hc : c < 256 := wf c (by simp)
    have hd : d < 256 := wf d (by simp)
    have he : e < 256 := wf e (by simp)
    have hf : f < 256 := wf f (by simp)
    have hmin : min ([a, b, c, d, e, f] : List Nat).length 7 = 6 := by simp
    simp only [embedKey, hM, hW, hO, hBM, hmin, List.take, stream]
    rw [or_right_comm _ (load32 [a, b, c, d, e, f]) _,
      load32_eq _ wf, load16at4_eq _ wf]
    simp only [List.getD_cons_zero, List.getD_cons_succ, Nat.shiftLeft_eq, Nat.reduceMul]
    rw [orAdd_hi 62 (dvd_refl _) (by omega),
      orAdd_hi 56 (dvd_add (dvd_term 56 56 _ (le_refl _)) (pow_dvd_pow 2 (by norm_num)))
        (by omega),
      orAdd_hi 32 (dvd_add (dvd_term 32 32 _ (le_refl _))
        (dvd_add (dvd_term 32 56 _ (by norm_num)) (pow_dvd_pow 2 (by norm_num)))) (by omega)]
    ring
  | a :: b :: c :: d :: e :: f :: g :: rest, wf =>
    have ha : a < 256 := wf a (by simp)
    have hb : b < 256 := wf b (by simp)
    have hc : c < 256 := wf c (by simp)
    have hd : d < 256 := wf d (by simp)
    have he : e < 256 := wf e (by simp)
    have hf : f < 256 := wf f (by simp)
    have hg : g < 256 := wf g (by simp)
    have hmin : min (a :: b :: c :: d :: e :: f :: g :: rest).length 7 = 7 := by
      simp [Nat.min_def]
    simp only [embedKey, hM, hW, hO, hBM, hmin, List.take, stream]
    rw [or_right_comm _ (load32 (a :: b :: c :: d :: e :: f :: g :: rest)) _,
      load32_eq _ wf, load16at4_eq _ wf]
    simp only [List.getD_cons_zero, List.getD_cons_succ, Nat.shiftLeft_eq, Nat.reduceMul]
    rw [orAdd_hi 62 (dvd_refl _) (by omega),
      orAdd_hi 56 (dvd_add (dvd_term 56 56 _ (le_refl _)) (pow_dvd_pow 2 (by norm_num)))
        (by omega),
      orAdd_hi 48 (dvd_add (dvd_term 48 48 _ (le_refl _))
        (dvd_add (dvd_term 48 56 _ (by norm_num)) (pow_dvd_pow 2 (by norm_num)))) (by omega),
      orAdd_hi 32 (dvd_add (dvd_term 32 32 _ (le_refl _))
        (dvd_add (dvd_term 32 48 _ (by norm_num))
          (dvd_add (dvd_term 32 56 _ (by norm_num)) (pow_dvd_pow 2 (by norm_num)))))
        (by omega)]
    ring

/-- C10 (confirmed). For every well-formed key, the bitpack produced by
`embedKey` has the embedding flag (bit 62) set, and `extractKey` recovers
exactly the first `min len 7` bytes: `extract(embed(k)) = k` whenever
`|k| ≤ 7`, and longer keys are silently truncated to their first 7 bytes
(src/unnamed/part_001). -/
theorem c10_embed_extract_roundtrip :
    ∀ k : List Nat, WfKey k →
      (embedKey k).testBit 62 = true ∧ extractKey (embedKey k) = k.take 7 := by
  intro k wf
  have wfT : WfKey (k.take 7) := fun x hx => wf x (List.take_subset 7 k hx)
  have hlen : (k.take 7).length = min 7 k.length := List.length_take 7 k
  have hS : stream (k.take 7) < 2 ^ 56 := by
    have h1 := stream_lt (k.take 7) wfT
    have h2 : (2 : Nat) ^ (8 * (k.take 7).length) ≤ 2 ^ 56 := by
      apply Nat.pow_le_pow_right (by norm_num)
      have h3 : (k.take 7).length ≤ 7 := by
        rw [hlen]
        exact min_le_left _ _
      omega
    omega
  have hm7 : min k.length 7 ≤ 7 := min_le_right _ _
  rw [embedKey_eq k wf]
  constructor
  · have hr : min k.length 7 * 2 ^ 56 + stream (k.take 7) < 2 ^ 62 := by
      have := Nat.mul_le_mul_right (2 ^ 56) hm7
      omega
    rw [Nat.add_assoc, Nat.testBit_two_pow_add_eq, Nat.testBit_lt_two_pow hr]
    rfl
  · have hsize : ((2 ^ 62 + min k.length 7 * 2 ^ 56 + stream (k.take 7)) &&&
        embKeySizeMask) >>> embKeySizeOffset = min k.length 7 := by
      have and7 : ∀ x : Nat, x &&& 7 = x % 8 := by
        intro x
        rw [show (7 : Nat) = 2 ^ 3 - 1 from rfl, Nat.and_pow_two_sub_one_eq_mod]
      rw [show embKeySizeMask = 7 <<< 56 from rfl,
        show embKeySizeOffset = 56 from rfl, and_shl_shr,
        Nat.shiftRight_eq_div_pow, and7]
      omega
    have hdata : (2 ^ 62 + min k.length 7 * 2 ^ 56 + stream (k.take 7)) &&&
        ((1 <<< embKeySizeOffset) - 1) = stream (k.take 7) := by
      rw [show ((1 : Nat) <<< embKeySizeOffset) - 1 = 2 ^ 56 - 1 from rfl,
        Nat.and_pow_two_sub_one_eq_mod]
      omega
    simp only [extractKey, hsize, hdata]
    rw [show min k.length 7 = (k.take 7).length from by rw [hlen, Nat.min_comm]]
    have hfn : ∀ i : Nat, (stream (k.take 7) >>> (byteWidth * i)) &&& 255 =
        stream (k.take 7) / 2 ^ (8 * i) % 256 := by
      intro i
      rw [show byteWidth = 8 from rfl, Nat.shiftRight_eq_div_pow,
        show (255 : Nat) = 2 ^ 8 - 1 from rfl, Nat.and_pow_two_sub_one_eq_mod]
    simp only [hfn]
    exact stream_bytes (k.take 7) wfT

/-- Witness for `c10_embed_extract_roundtrip` on the 9-byte key
`[1,...,9]`: the flag is set and extraction truncates to the first 7
bytes. -/
theorem c10_witness :
    (embedKey [1, 2, 3, 4, 5, 6, 7, 8, 9]).testBit 62 = true ∧
    extractKey (embedKey [1, 2, 3, 4, 5, 6, 7, 8, 9]) = [1, 2, 3, 4, 5, 6, 7] :=
  ⟨(c10_embed_extract_roundtrip [1, 2, 3, 4, 5, 6, 7, 8, 9] (by decide)).1,
    ((c10_embed_extract_roundtrip [1, 2, 3, 4, 5, 6, 7, 8, 9] (by decide)).2).trans
      (by decide)⟩

end QP




namespace QP

theorem takeNBits_nil (s num : Nat) :
    takeNBits [] s num = (2 ^ num % 2 ^ 64, [], 0) := by
  by_cases h4 : num = 4
  · subst h4; rfl
  · by_cases h5 : num = 5
    · subst h5; rfl
    · simp [takeNBits, h4, h5, Nat.shiftLeft_eq]

/-- Splitting off the first `s ≤ 8` bits of a byte stream. -/
theorem stream_shr (b : Nat) (t : List Nat) (s : Nat) (hs : s ≤ 8) :
    stream (b :: t) >>> s = b >>> s + 2 ^ (8 - s) * stream t := by
  have h256 : (256 : Nat) = 2 ^ s * 2 ^ (8 - s) := by
    rw [← pow_add, show s + (8 - s) = 8 from by omega]
    norm_num
  simp only [stream, Nat.shiftRight_eq_div_pow]
  rw [h256, mul_assoc, Nat.add_mul_div_left _ _ (Nat.pos_pow_of_pos s (by norm_num))]

theorem stream_drop (l : List Nat) (wf : WfKey l) :
    ∀ d : Nat, stream (l.drop d) = stream l >>> (8 * d) := by
  induction l with
  | nil => intro d; simp [stream]
  | cons b t ih =>
    have hb : b < 256 := wf b (List.mem_cons_self b t)
    have wt : WfKey t := fun x hx => wf x (List.mem_cons_of_mem b hx)
    intro d
    cases d with
    | zero => simp
    | succ d =>
      rw [List.drop_succ_cons, ih wt d,
        show 8 * (d + 1) = 8 + 8 * d from by ring, Nat.shiftRight_add]
      congr 1
      rw [stream_shr b t 8 (le_refl _)]
      simp only [Nat.shiftRight_eq_div_pow, Nat.sub_self, pow_zero, one_mul]
      omega

/-- `x` modulo `2^(a+b)` splits into the low `a` bits plus the next `b` bits. -/
theorem mod_pow_split (x a b : Nat) :
    x % 2 ^ (a + b) = x % 2 ^ a + 2 ^ a * (x / 2 ^ a % 2 ^ b) := by
  rw [pow_add]
  exact Nat.mod_mul

/-- Exact value of the accumulation loop when it consumes the whole tail
without `uint64` overflow. -/
theorem accLoop_exact : ∀ (t : List Nat) (res done : Nat), WfKey t →
    done + 8 * t.length ≤ 64 → res < 2 ^ done →
    accLoop (done + 8 * t.length) t res done = res + 2 ^ done * stream t := by
  intro t
  induction t with
  | nil => intro res done _ _ _; simp [accLoop, stream]
  | cons b rest ih =>
    intro res done wf h64 hres
    have hb : b < 256 := wf b (List.mem_cons_self b rest)
    have hlen : done + 8 * (b :: rest).length = (done + 8) + 8 * rest.length := by
      simp [List.length_cons]
      ring
    have hlt : done < done + 8 * (b :: rest).length := by
      simp only [List.length_cons]
      omega
    rw [accLoop, if_pos hlt]
    have hshl : (b <<< done) % 2 ^ 64 = b * 2 ^ done := by
      rw [Nat.shiftLeft_eq, Nat.mod_eq_of_lt]
      calc b * 2 ^ done < 256 * 2 ^ done :=
            (Nat.mul_lt_mul_right (Nat.pos_pow_of_pos done (by norm_num))).mpr hb
        _ = 2 ^ (done + 8) := by ring
        _ ≤ 2 ^ 64 := Nat.pow_le_pow_right (by norm_num)
            (by simp only [List.length_cons] at h64; omega)
    rw [hshl, orAdd_lo done hres (dvd_term done done b (le_refl _))]
    have wfr : WfKey rest := fun x hx => wf x (List.mem_cons_of_mem b hx)
    have h64' : (done + 8) + 8 * rest.length ≤ 64 := by
      simp only [List.length_cons] at h64
      omega
    have hres' : res + b * 2 ^ done < 2 ^ (done + 8) := by
      have he : (2 : Nat) ^ (done + 8) = 256 * 2 ^ done := by ring
      have hg : b * 2 ^ done ≤ 255 * 2 ^ done := Nat.mul_le_mul_right _ (by omega)
      omega
    rw [hlen, ih (res + b * 2 ^ done) (done + 8) wfr h64' hres']
    simp only [stream]
    ring

end QP

namespace QP

/-- The accumulation loop modulo `2^j`, for `j` within the requested bits:
the `uint64` wrap-around of the shifts is invisible below bit 64. -/
theorem accLoop_mod : ∀ (t : List Nat) (res done needBits j : Nat), WfKey t →
    res < 2 ^ done → needBits ≤ done + 8 * t.length → j ≤ needBits → needBits ≤ 64 →
    accLoop needBits t res done % 2 ^ j = (res + 2 ^ done * stream t) % 2 ^ j := by
  intro t
  induction t with
  | nil =>
    intro res done needBits j _ _ hn hj _
    simp only [List.length_nil, Nat.mul_zero, Nat.add_zero] at hn
    have : ¬ done < needBits := by omega
    rw [accLoop, if_neg this]
    simp [stream]
  | cons b rest ih =>
    intro res done needBits j wf hres hn hj h64
    have hb : b < 256 := wf b (List.mem_cons_self b rest)
    have wfr : WfKey rest := fun x hx => wf x (List.mem_cons_of_mem b hx)
    by_cases hlt : done < needBits
    · rw [accLoop, if_pos hlt]
      have hshl : (b <<< done) % 2 ^ 64 = (b % 2 ^ (64 - done)) * 2 ^ done := by
        rw [Nat.shiftLeft_eq,
          show (2 : Nat) ^ 64 = 2 ^ (64 - done) * 2 ^ done from by
            rw [← pow_add, show 64 - done + done = 64 from by omega],
          Nat.mul_mod_mul_right]
      rw [hshl, orAdd_lo done hres (dvd_term done done _ (le_refl _))]
      have hres' : res + (b % 2 ^ (64 - done)) * 2 ^ done < 2 ^ (done + 8) := by
        have he : (2 : Nat) ^ (done + 8) = 256 * 2 ^ done := by ring
        have hg : (b % 2 ^ (64 - done)) * 2 ^ done ≤ 255 * 2 ^ done :=
          Nat.mul_le_mul_right _ (by
            have := Nat.mod_le b (2 ^ (64 - done))
            omega)
        omega
      have hn' : needBits ≤ (done + 8) + 8 * rest.length := by
        simp only [List.length_cons] at hn
        omega
      rw [ih _ (done + 8) needBits j wfr hres' hn' hj h64]
      have hAB : (b % 2 ^ (64 - done)) * 2 ^ done ≡ b * 2 ^ done [MOD 2 ^ j] := by
        have h1 : (b * 2 ^ done) % 2 ^ 64 ≡ b * 2 ^ done [MOD 2 ^ 64] :=
          Nat.mod_modEq _ _
        have h2 := h1.of_dvd (pow_dvd_pow 2 (by omega : j ≤ 64))
        calc (b % 2 ^ (64 - done)) * 2 ^ done
            = (b * 2 ^ done) % 2 ^ 64 := by rw [← hshl, Nat.shiftLeft_eq]
          _ ≡ b * 2 ^ done [MOD 2 ^ j] := h2
      have hre : res + 2 ^ done * stream (b :: rest) =
          res + b * 2 ^ done + 2 ^ (done + 8) * stream rest := by
        simp only [stream]
        ring
      rw [hre]
      exact (hAB.add_left res).add_right (2 ^ (done + 8) * stream rest)
    · rw [accLoop, if_neg hlt]
      obtain ⟨c, hc⟩ : 2 ^ j ∣ 2 ^ done * stream (b :: rest) :=
        dvd_mul_of_dvd_left (pow_dvd_pow 2 (by omega : j ≤ done)) _
      rw [hc, Nat.add_mul_mod_self_left]

end QP

namespace QP

theorem and31_eq_mod (x : Nat) : x &&& 31 = x % 32 := by
  rw [show (31 : Nat) = 2 ^ 5 - 1 from rfl, Nat.and_pow_two_sub_one_eq_mod]

theorem and15_eq_mod (x : Nat) : x &&& 15 = x % 16 := by
  rw [show (15 : Nat) = 2 ^ 4 - 1 from rfl, Nat.and_pow_two_sub_one_eq_mod]

theorem and7_eq_mod (x : Nat) : x &&& 7 = x % 8 := by
  rw [show (7 : Nat) = 2 ^ 3 - 1 from rfl, Nat.and_pow_two_sub_one_eq_mod]

theorem orDB3 (b b1 : Nat) (hb : b < 256) :
    b / 8 ||| b1 * 32 % 256 = b / 8 + b1 * 32 % 256 :=
  orAdd_lo 5 (by omega) (by omega)

theorem orDB4 (b b1 : Nat) (hb : b < 256) :
    b / 16 ||| b1 * 16 % 256 = b / 16 + b1 * 16 % 256 :=
  orAdd_lo 4 (by omega) (by omega)

theorem orDB5 (b b1 : Nat) (hb : b < 256) :
    b / 32 ||| b1 * 8 % 256 = b / 32 + b1 * 8 % 256 :=
  orAdd_lo 3 (by omega) (by omega)

theorem orDB6 (b b1 : Nat) (hb : b < 256) :
    b / 64 ||| b1 * 4 % 256 = b / 64 + b1 * 4 % 256 :=
  orAdd_lo 2 (by omega) (by omega)

theorem orDB7 (b b1 : Nat) (hb : b < 256) :
    b / 128 ||| b1 * 2 % 256 = b / 128 + b1 * 2 % 256 :=
  orAdd_lo 1 (by omega) (by omega)

theorem take5Bits_spec (k : List Nat) (s : Nat) (wf : WfKey k) (hs : s ≤ 7) :
    take5Bits k s = takeSpec k s 5 := by
  match k with
  | [] => rfl
  | b :: t =>
    have hb : b < 256 := wf b (List.mem_cons_self b t)
    rcases t with _ | ⟨b1, t1⟩
    · interval_cases s <;>
        simp [take5Bits, takeSpec, stream, Nat.shiftRight_eq_div_pow, Nat.shiftLeft_eq,
          and31_eq_mod, and7_eq_mod, byteModMask, byteWidth, byteShift, Nat.min_def] <;>
        omega
    · have hb1 : b1 < 256 := wf b1 (by simp)
      have hm : min 5 (8 * (t1.length + 1 + 1) - s) = 5 := by omega
      have hm0 : min 5 (8 * (t1.length + 1 + 1)) = 5 := by omega
      interval_cases s <;>
        simp [take5Bits, takeSpec, stream, Nat.shiftRight_eq_div_pow, Nat.shiftLeft_eq,
          and31_eq_mod, and7_eq_mod, byteModMask, byteWidth, byteShift, hm, hm0,
          orDB3 b b1 hb, orDB4 b b1 hb, orDB5 b b1 hb, orDB6 b b1 hb, orDB7 b b1 hb,
          Nat.add_mul_div_left] <;>
        omega

end QP

namespace QP

theorem take4Bits_spec (k : List Nat) (s : Nat) (wf : WfKey k) (hs : s ≤ 7) :
    take4Bits k s = takeSpec k s 4 := by
  match k with
  | [] => rfl
  | b :: t =>
    have hb : b < 256 := wf b (List.mem_cons_self b t)
    rcases t with _ | ⟨b1, t1⟩
    · interval_cases s <;>
        simp [take4Bits, takeSpec, stream, Nat.shiftRight_eq_div_pow, Nat.shiftLeft_eq,
          and15_eq_mod, and7_eq_mod, byteModMask, byteWidth, byteShift, Nat.min_def] <;>
        omega
    · have hb1 : b1 < 256 := wf b1 (by simp)
      have hm : min 4 (8 * (t1.length + 1 + 1) - s) = 4 := by omega
      have hm0 : min 4 (8 * (t1.length + 1 + 1)) = 4 := by omega
      interval_cases s <;>
        simp [take4Bits, takeSpec, stream, Nat.shiftRight_eq_div_pow, Nat.shiftLeft_eq,
          and15_eq_mod, and7_eq_mod, byteModMask, byteWidth, byteShift, hm, hm0,
          orDB4 b b1 hb, orDB5 b b1 hb, orDB6 b b1 hb, orDB7 b b1 hb,
          Nat.add_mul_div_left] <;>
        omega

end QP

namespace QP

theorem takeNBits_spec (k : List Nat) (s n : Nat) (wf : WfKey k) (hs : s ≤ 7)
    (hn : n ≤ 64) : takeNBits k s n = takeSpec k s n := by
  by_cases h4 : n = 4
  · subst h4
    rw [show takeNBits k s 4 = take4Bits k s from by simp [takeNBits]]
    exact take4Bits_spec k s wf hs
  by_cases h5 : n = 5
  · subst h5
    rw [show takeNBits k s 5 = take5Bits k s from by simp [takeNBits]]
    exact take5Bits_spec k s wf hs
  match k with
  | [] =>
    rw [takeNBits_nil]
    simp [takeSpec]
  | b :: t =>
    have hb : b < 256 := wf b (List.mem_cons_self b t)
    have wt : WfKey t := fun x hx => wf x (List.mem_cons_of_mem b hx)
    have hbs : b >>> s < 2 ^ (8 - s) := by
      rw [Nat.shiftRight_eq_div_pow]
      rw [Nat.div_lt_iff_lt_mul (by positivity)]
      calc b < 256 := hb
        _ = 2 ^ 8 := by norm_num
        _ ≤ 2 ^ (8 - s) * 2 ^ s := by rw [← pow_add]; apply Nat.pow_le_pow_right <;> omega
    have hstr : stream (b :: t) >>> s = b >>> s + 2 ^ (8 - s) * stream t :=
      stream_shr b t s (by omega)
    have hmask : ∀ x : Nat, x &&& (1 <<< n - 1) = x % 2 ^ n := by
      intro x
      rw [Nat.shiftLeft_eq, one_mul, Nat.and_pow_two_sub_one_eq_mod]
    simp only [takeNBits, if_neg h4, if_neg h5, List.length_cons,
      if_neg (Nat.succ_ne_zero t.length), List.headD_cons, List.tail_cons,
      byteShift, byteWidth, byteModMask]
    have hsb : (t.length + 1) <<< 3 - s = 8 - s + 8 * t.length := by
      rw [Nat.shiftLeft_eq]; omega
    rw [hsb]
    rw [show (1:Nat) <<< 3 - 1 = 7 from rfl, show (1:Nat) <<< 3 = 8 from rfl]
    simp only [takeSpec, List.length_cons, if_neg (Nat.succ_ne_zero t.length)]
    rcases le_or_lt n (8 - s + 8 * t.length) with hle | hgt
    · -- non-truncating path: all requested bits are available
      rw [if_neg (by omega : ¬ n > 8 - s + 8 * t.length)]
      have hmin : min n (8 * (t.length + 1) - s) = n := by omega
      rw [hmin, hmask]
      have hmod := accLoop_mod t (b >>> s) (8 - s) n n wt hbs (by omega) (le_refl n) hn
      rw [hmod, ← hstr]
      simp only [Prod.mk.injEq]
      refine ⟨trivial, ?_, ?_⟩
      · rw [Nat.shiftRight_eq_div_pow]
      · rw [and7_eq_mod]
    · -- truncating path: the key is exhausted before n bits are read
      rw [if_pos (by omega : n > 8 - s + 8 * t.length)]
      have hexact := accLoop_exact t (b >>> s) (8 - s) wt (by omega) hbs
      rw [hexact, ← hstr]
      have hlt : stream (b :: t) >>> s < 2 ^ (8 - s + 8 * t.length) := by
        rw [hstr]
        have hst := stream_lt t wt
        have h1 : 2 ^ (8 - s) * (stream t + 1) ≤ 2 ^ (8 - s) * 2 ^ (8 * t.length) :=
          Nat.mul_le_mul_left _ hst
        have h2 : (2:Nat) ^ (8 - s) * 2 ^ (8 * t.length) = 2 ^ (8 - s + 8 * t.length) :=
          (pow_add 2 _ _).symm
        have h3 : (2:Nat) ^ (8 - s) * (stream t + 1) =
            2 ^ (8 - s) * stream t + 2 ^ (8 - s) := by ring
        omega
      have hmin : min n (8 * (t.length + 1) - s) = 8 - s + 8 * t.length := by omega
      rw [hmin, hmask]
      have hme : stream (b :: t) >>> s % 2 ^ n = stream (b :: t) >>> s :=
        Nat.mod_eq_of_lt (lt_of_lt_of_le hlt (Nat.pow_le_pow_right (by norm_num) (by omega)))
      have hme2 : stream (b :: t) >>> s % 2 ^ (8 - s + 8 * t.length) = stream (b :: t) >>> s :=
        Nat.mod_eq_of_lt hlt
      rw [hme, hme2]
      simp only [Prod.mk.injEq]
      refine ⟨trivial, ?_, ?_⟩
      · rw [Nat.shiftRight_eq_div_pow]
      · rw [and7_eq_mod]

end QP

namespace QP

/-- **C8.** For every key `k`, shift `s ∈ [0,7]` and bit counts `n`, `m` with
`n + m ≤ 64`: reading `n` bits from `k` at `s` and then `m` bits from the
returned remainder at the returned shift yields the same remainder and the same
new shift as a single `takeNBits` of `n + m` bits, and the two values compose
additively (`v = v1 + 2^n * v2`) whenever the intermediate remainder is
non-empty; when the intermediate remainder is empty the second read returns the
sentinel `2^m` wrapped to 64 bits (`uint64(1) << m`, which is 0 at `m = 64`)
and the single read returns the first read's value (or the full, likewise
wrapped, sentinel `2^(n+m)` if `k` itself is empty). -/
theorem c8_take_bits_compose (k : List Nat) (s n m : Nat)
    (v1 v2 v : Nat) (rem1 rem2 rem : List Nat) (sh1 sh2 sh : Nat)
    (wf : WfKey k) (hs : s ≤ 7) (hnm : n + m ≤ 64)
    (h1 : takeNBits k s n = (v1, rem1, sh1))
    (h2 : takeNBits rem1 sh1 m = (v2, rem2, sh2))
    (h3 : takeNBits k s (n + m) = (v, rem, sh)) :
    rem2 = rem ∧ sh2 = sh ∧
    (rem1 ≠ [] → v = v1 + 2 ^ n * v2) ∧
    (rem1 = [] →
      v2 = 2 ^ m % 2 ^ 64 ∧
      v = if k = [] then 2 ^ (n + m) % 2 ^ 64 else v1) := by
  rcases eq_or_ne k [] with hk | hk
  · subst hk
    rw [takeNBits_nil] at h1 h3
    simp only [Prod.mk.injEq] at h1 h3
    obtain ⟨hv1, hrem1, hsh1⟩ := h1
    obtain ⟨hv, hrem, hsh⟩ := h3
    rw [← hrem1, ← hsh1] at h2
    rw [takeNBits_nil] at h2
    simp only [Prod.mk.injEq] at h2
    obtain ⟨hv2, hrem2, hsh2⟩ := h2
    refine ⟨by rw [← hrem2, ← hrem], by rw [← hsh2, ← hsh], ?_, ?_⟩
    · intro hcon; exact absurd hrem1.symm hcon
    · intro _; exact ⟨hv2.symm, by rw [← hv, if_pos rfl]⟩
  · have hL : k.length ≠ 0 := fun hc => hk (List.length_eq_zero.mp hc)
    have hL1 : 1 ≤ k.length := Nat.pos_of_ne_zero hL
    rw [takeNBits_spec k s n wf hs (by omega)] at h1
    rw [takeNBits_spec k s (n + m) wf hs hnm] at h3
    simp only [takeSpec, if_neg hL, Prod.mk.injEq] at h1 h3
    obtain ⟨hv1, hrem1, hsh1⟩ := h1
    obtain ⟨hv, hrem, hsh⟩ := h3
    rcases eq_or_ne rem1 [] with hremn | hremn
    · -- the first read exhausted the key: sentinel case
      rw [hremn] at hrem1
      have hdm : k.length ≤ (s + min n (8 * k.length - s)) / 8 := by
        by_contra hcon
        have := List.drop_eq_nil_iff.mp hrem1
        omega
      have hc1 : min n (8 * k.length - s) = 8 * k.length - s := by omega
      have hcm : min (n + m) (8 * k.length - s) = 8 * k.length - s := by omega
      rw [hremn] at h2
      rw [takeNBits_nil] at h2
      simp only [Prod.mk.injEq] at h2
      obtain ⟨hv2, hrem2, hsh2⟩ := h2
      refine ⟨?_, ?_, ?_, ?_⟩
      · rw [← hrem2, ← hrem, hcm, show (s + (8 * k.length - s)) / 8 = k.length from by omega,
          List.drop_length]
      · rw [← hsh2, ← hsh, hcm]; omega
      · intro hcon; exact absurd hremn hcon
      · intro _
        refine ⟨hv2.symm, ?_⟩
        rw [if_neg hk, ← hv, ← hv1, hc1, hcm]
    · -- the first read left a non-empty remainder: values compose
      have hd : (s + min n (8 * k.length - s)) / 8 < k.length := by
        by_contra hcon
        exact hremn (by rw [← hrem1, List.drop_eq_nil_iff]; omega)
      have hc1 : min n (8 * k.length - s) = n := by omega
      rw [hc1] at hv1 hrem1 hsh1
      have hsn8 : s + n ≤ 8 * k.length := by omega
      have wfr : WfKey rem1 := by
        intro x hx
        rw [← hrem1] at hx
        exact wf x (List.mem_of_mem_drop hx)
      have hL2 : rem1.length ≠ 0 := fun hc => hremn (List.length_eq_zero.mp hc)
      rw [takeNBits_spec rem1 sh1 m wfr (by omega) (by omega)] at h2
      simp only [takeSpec, if_neg hL2, Prod.mk.injEq] at h2
      obtain ⟨hv2, hrem2, hsh2⟩ := h2
      have hlen : rem1.length = k.length - (s + n) / 8 := by
        rw [← hrem1, List.length_drop]
      have hc2 : min m (8 * rem1.length - sh1) = min m (8 * k.length - (s + n)) := by
        rw [hlen, ← hsh1]
        omega
      rw [hc2] at hv2 hrem2 hsh2
      have hstream : stream rem1 = stream k >>> (8 * ((s + n) / 8)) := by
        rw [← hrem1]
        exact stream_drop k wf _
      have hsr : stream rem1 >>> sh1 = stream k >>> (s + n) := by
        rw [hstream, ← hsh1, ← Nat.shiftRight_add]
        congr 1
        omega
      rw [hsr] at hv2
      have hcm : min (n + m) (8 * k.length - s) = n + min m (8 * k.length - (s + n)) := by
        omega
      rw [hcm] at hv hrem hsh
      refine ⟨?_, ?_, ?_, ?_⟩
      · rw [← hrem2, ← hrem, ← hrem1, List.drop_drop]
        congr 1
        omega
      · rw [← hsh2, ← hsh]
        omega
      · intro _
        rw [← hv, ← hv1, ← hv2, mod_pow_split,
          show stream k >>> (s + n) = stream k >>> s / 2 ^ n from by
            rw [Nat.shiftRight_add, Nat.shiftRight_eq_div_pow]]
      · intro hcon; exact absurd hcon hremn

end QP

namespace QP

/-- Witness for C8: composing a 7-bit read and a 9-bit read over the key
`AB CD EF` at shift 3 matches the single 16-bit read. -/
theorem c8_witness :
    [239] = [239] ∧ 3 = 3 ∧
    (([205, 239] : List Nat) ≠ [] → 63925 = 53 + 2 ^ 7 * 499) ∧
    (([205, 239] : List Nat) = [] →
      499 = 2 ^ 9 % 2 ^ 64 ∧
      63925 = if ([171, 205, 239] : List Nat) = [] then 2 ^ 16 % 2 ^ 64 else 53) :=
  c8_take_bits_compose [171, 205, 239] 3 7 9 53 499 63925 [205, 239] [239] [239] 2 3 3
    (by decide) (by decide) (by decide) (by decide) (by decide) (by decide)

end QP
